import Mathlib

/-!
Verification of the dependency-aware concurrent pipeline scheduler of
`automatic_pipeline.py`.

The pure dependency resolver (`identify_dependencies`, lines 455-468) is
embedded directly as a Lean function on lists.  The concurrent part
(`run_stage` / `run_pipeline` / `main`, lines 471-523) is embedded as a
labelled transition system whose atomic steps correspond to the scheduling
points of the asyncio program, and whose `cancel` rule models the task
cancellation performed by `asyncio.run` after `asyncio.gather` propagates
the first exception out of `main`.  The duplicate-output check of the
`__main__` block (lines 546-559) is embedded as an `Except`-valued guard
that runs before any scheduler state exists.
-/

namespace AutoPipeline

/-- One fully resolved configuration record (an `argparse.Namespace` after
`update_args_from_toml` and `setup_args`).  Only the fields read by the
scheduler core are kept; all remaining fields are opaque payload passed to
the stage operations. -/
structure Config where
  pipeline_type : String
  n_add_to_ref_per_character : Int
  character_ref_dir : String
  start_stage : Nat
  end_stage : Nat
  dst_dir : String
  extra_path_component : String
  image_type : String
  deriving DecidableEq, Repr

/-- Guard on line 458 of `identify_dependencies`:
`config.pipeline_type != "booru" or config.n_add_to_ref_per_character <= 0`.
Records passing this guard are the ones that may acquire dependencies. -/
def non_contributor (c : Config) : Bool :=
  c.pipeline_type != "booru" || c.n_add_to_ref_per_character ≤ 0

/-- Inner list comprehension of `identify_dependencies` (lines 459-465):
the indices of configs that share `character_ref_dir` with `c`, are of
pipeline type `"booru"`, and have `n_add_to_ref_per_character > 0`. -/
def dependent_configs (configs : List Config) (c : Config) : List Nat :=
  (configs.enum.filter fun q =>
    q.2.character_ref_dir == c.character_ref_dir
      && q.2.pipeline_type == "booru"
      && q.2.n_add_to_ref_per_character > 0).map Prod.fst

/-- `identify_dependencies` (lines 455-468).  The Python dict (insertion
ordered, keyed by the enumeration index, one entry per index) is modelled
as an association list. -/
def identify_dependencies (configs : List Config) : List (Nat × List Nat) :=
  configs.enum.filterMap fun p =>
    if non_contributor p.2 then
      if (dependent_configs configs p.2).isEmpty then none
      else some (p.1, dependent_configs configs p.2)
    else none

/-- Qualifying provider relation described by the spec (§4.1): record `j`
is a provider for record `i` iff `j ≠ i`, `j` shares `character_ref_dir`
with `i`, `j` is a booru run with positive contribution count, and `i` is
not itself such a contributor. -/
def qualifying_provider (configs : List Config) (i j : Nat) : Prop :=
  ∃ ci cj, configs[i]? = some ci ∧ configs[j]? = some cj ∧ j ≠ i ∧
    cj.character_ref_dir = ci.character_ref_dir ∧
    cj.pipeline_type = "booru" ∧ 0 < cj.n_add_to_ref_per_character ∧
    ¬ (ci.pipeline_type = "booru" ∧ 0 < ci.n_add_to_ref_per_character)

theorem mem_dependent_configs {configs : List Config} {c : Config} {j : Nat} :
    j ∈ dependent_configs configs c ↔
      ∃ cj, configs[j]? = some cj ∧
        cj.character_ref_dir = c.character_ref_dir ∧
        cj.pipeline_type = "booru" ∧ 0 < cj.n_add_to_ref_per_character := by
  unfold dependent_configs
  constructor
  · intro h
    obtain ⟨q, hq, rfl⟩ := List.mem_map.mp h
    obtain ⟨hmem, hp⟩ := List.mem_filter.mp hq
    obtain ⟨k, ck⟩ := q
    simp only [Bool.and_eq_true, beq_iff_eq, decide_eq_true_eq] at hp
    exact ⟨ck, List.mk_mem_enum_iff_getElem?.mp hmem, hp.1.1, hp.1.2, hp.2⟩
  · rintro ⟨cj, hget, href, hty, hn⟩
    refine List.mem_map.mpr ⟨(j, cj),
      List.mem_filter.mpr ⟨List.mk_mem_enum_iff_getElem?.mpr hget, ?_⟩, rfl⟩
    simp only [Bool.and_eq_true, beq_iff_eq, decide_eq_true_eq]
    exact ⟨⟨href, hty⟩, hn⟩

theorem non_contributor_iff {c : Config} :
    non_contributor c = true ↔
      ¬ (c.pipeline_type = "booru" ∧ 0 < c.n_add_to_ref_per_character) := by
  unfold non_contributor
  simp only [Bool.or_eq_true, bne_iff_ne, ne_eq, decide_eq_true_eq, not_and,
    not_lt]
  constructor
  · rintro (h | h)
    · exact fun hty => absurd hty h
    · exact fun _ => h
  · intro h
    by_cases hty : c.pipeline_type = "booru"
    · exact Or.inr (h hty)
    · exact Or.inl hty

theorem mem_identify_dependencies {configs : List Config} {i : Nat}
    {js : List Nat} :
    (i, js) ∈ identify_dependencies configs ↔
      ∃ ci, configs[i]? = some ci ∧
        ¬ (ci.pipeline_type = "booru" ∧ 0 < ci.n_add_to_ref_per_character) ∧
        js = dependent_configs configs ci ∧ js ≠ [] := by
  unfold identify_dependencies
  simp only [List.mem_filterMap]
  constructor
  · rintro ⟨⟨k, ck⟩, hmem, hf⟩
    dsimp only at hf
    by_cases hnc : non_contributor ck = true
    · rw [if_pos hnc] at hf
      by_cases he : (dependent_configs configs ck).isEmpty = true
      · rw [if_pos he] at hf
        exact absurd hf (by simp)
      · rw [if_neg he] at hf
        simp only [Option.some.injEq, Prod.mk.injEq] at hf
        obtain ⟨rfl, hdcs⟩ := hf
        subst hdcs
        refine ⟨ck, List.mk_mem_enum_iff_getElem?.mp hmem,
          non_contributor_iff.mp hnc, rfl, ?_⟩
        intro hnil
        rw [hnil] at he
        exact he rfl
    · rw [if_neg hnc] at hf
      exact absurd hf (by simp)
  · rintro ⟨ci, hget, hnp, rfl, hne⟩
    refine ⟨(i, ci), List.mk_mem_enum_iff_getElem?.mpr hget, ?_⟩
    dsimp only
    have he : ¬ (dependent_configs configs ci).isEmpty = true := fun he =>
      hne (List.isEmpty_iff.mp he)
    rw [if_pos (non_contributor_iff.mpr hnp), if_neg he]

/-- C1: `identify_dependencies` maps an index `i` to exactly the set of its
qualifying providers `j` (`j ≠ i`, shared `character_ref_dir`, `j` a booru
contributor, `i` not itself a booru contributor), and `i` appears as a key
iff at least one qualifying provider exists. -/
theorem identify_dependencies_characterization (configs : List Config)
    (i : Nat) :
    (∀ js, (i, js) ∈ identify_dependencies configs →
      ∀ j, j ∈ js ↔ qualifying_provider configs i j) ∧
    ((∃ js, (i, js) ∈ identify_dependencies configs) ↔
      ∃ j, qualifying_provider configs i j) := by
  have key : ∀ js, (i, js) ∈ identify_dependencies configs →
      ∀ j, j ∈ js ↔ qualifying_provider configs i j := by
    intro js hmem j
    obtain ⟨ci, hget, hnp, rfl, hne⟩ := mem_identify_dependencies.mp hmem
    rw [mem_dependent_configs]
    constructor
    · rintro ⟨cj, hgj, href, hty, hn⟩
      refine ⟨ci, cj, hget, hgj, ?_, href, hty, hn, hnp⟩
      rintro rfl
      rw [hget] at hgj
      have hcc : ci = cj := Option.some.inj hgj
      cases hcc
      exact hnp ⟨hty, hn⟩
    · rintro ⟨ci', cj, hgi', hgj, _, href, hty, hn, _⟩
      rw [hget] at hgi'
      have hcc : ci = ci' := Option.some.inj hgi'
      cases hcc
      exact ⟨cj, hgj, href, hty, hn⟩
  refine ⟨key, ?_, ?_⟩
  · rintro ⟨js, hmem⟩
    obtain ⟨ci, hget, hnp, hjs, hne⟩ := mem_identify_dependencies.mp hmem
    obtain ⟨j, hj⟩ := List.exists_mem_of_ne_nil js hne
    exact ⟨j, (key js hmem j).mp hj⟩
  · rintro ⟨j, hq⟩
    obtain ⟨ci, cj, hgi, hgj, hji, href, hty, hn, hnp⟩ := hq
    have hmem : j ∈ dependent_configs configs ci :=
      mem_dependent_configs.mpr ⟨cj, hgj, href, hty, hn⟩
    exact ⟨dependent_configs configs ci,
      mem_identify_dependencies.mpr
        ⟨ci, hgi, hnp, rfl, List.ne_nil_of_mem hmem⟩⟩

/-- C8: a booru record with positive contribution count never appears as a
key of the resolver result, and consequently no index lies in its own
dependency list. -/
theorem provider_never_dependent (configs : List Config) (i : Nat)
    (js : List Nat) (h : (i, js) ∈ identify_dependencies configs) :
    (∀ ci, configs[i]? = some ci →
      ¬ (ci.pipeline_type = "booru" ∧ 0 < ci.n_add_to_ref_per_character)) ∧
    i ∉ js := by
  obtain ⟨ci, hget, hnp, rfl, hne⟩ := mem_identify_dependencies.mp h
  constructor
  · intro ci' hget'
    rw [hget] at hget'
    have hcc : ci = ci' := Option.some.inj hget'
    cases hcc
    exact hnp
  · intro hmem
    obtain ⟨cj, hgj, href, hty, hn⟩ := mem_dependent_configs.mp hmem
    rw [hget] at hgj
    have hcc : ci = cj := Option.some.inj hgj
    cases hcc
    exact hnp ⟨hty, hn⟩

/-- C9: the resolver is deterministic: equal input record lists yield equal
dependency mappings.  In this embedding `identify_dependencies` is a pure
function, mirroring that the Python function reads nothing but its
argument and mutates nothing. -/
theorem identify_dependencies_deterministic (configs1 configs2 : List Config)
    (h : configs1 = configs2) :
    identify_dependencies configs1 = identify_dependencies configs2 :=
  congrArg identify_dependencies h

/-- Booru reference-building record contributing one image per character
(provider of spec Scenario A). -/
def cfgX : Config :=
  ⟨"booru", 1, "r1", 3, 3, "dx", "px", "booru"⟩

/-- Screenshot record sharing the reference directory of `cfgX` (dependent
of spec Scenario A). -/
def cfgY : Config :=
  ⟨"screenshots", 0, "r1", 3, 3, "dy", "py", "screenshots"⟩

/-- Record list of spec Scenario A. -/
def cfgsA : List Config := [cfgX, cfgY]

theorem identify_dependencies_characterization_witness :
    ∃ js, (1, js) ∈ identify_dependencies cfgsA :=
  (identify_dependencies_characterization cfgsA 1).2.mpr
    ⟨0, cfgY, cfgX, rfl, rfl, by decide, rfl, rfl, by decide, by decide⟩

theorem provider_never_dependent_witness :
    (1, [0]) ∈ identify_dependencies cfgsA ∧ 1 ∉ ([0] : List Nat) :=
  ⟨by decide, (provider_never_dependent cfgsA 1 [0] (by decide)).2⟩

theorem identify_dependencies_deterministic_witness :
    identify_dependencies cfgsA = identify_dependencies cfgsA :=
  identify_dependencies_deterministic cfgsA cfgsA rfl

/-- Key set of `stage_events[i]`, the per-config event dict created in
`main` (lines 512-515) before any runner task is started:
`{j: asyncio.Event() for j in range(config.start_stage, config.end_stage + 1)}`.
The step relation below only consults this set; no signal is ever created
later, so a key is present during the run iff it is present here. -/
def eventKeys (configs : List Config) (i : Nat) : List Nat :=
  match configs[i]? with
  | some c => List.range' c.start_stage (c.end_stage + 1 - c.start_stage)
  | none => []

/-- Dependency list consulted by `run_pipeline` (lines 495-502):
`stage3_dependencies[config_index]` when `config_index` is a key, and the
empty list otherwise (in which case the code skips the wait). -/
def deps (configs : List Config) (i : Nat) : List Nat :=
  ((identify_dependencies configs).lookup i).getD []

/-- Status of one pipeline-runner task.  `atStage s` means the loop of
`run_pipeline` is about to process stage `s` (and is suspended on the
dependency wait when `s = 3` applies); `failed s` means the dispatched
operation for stage `s` raised (or the stage-3 wait referenced a missing
signal); `cancelled` means `asyncio.run` cancelled the still-pending task
after another task's exception propagated out of `main`. -/
inductive RStatus where
  | idle
  | atStage (s : Nat)
  | completed
  | failed (s : Nat)
  | cancelled
  deriving DecidableEq, Repr

/-- Global scheduler state: the status of every runner task and the set of
completion signals that are done (`asyncio.Event.is_set`).  Signals are
monotone: the step relation only ever adds pairs to `events`. -/
structure SchedState where
  rs : Nat → RStatus
  events : List (Nat × Nat)

/-- State before `asyncio.gather` in `main` starts any runner: every task
is created but not started, and no completion signal is set. -/
def initState : SchedState :=
  ⟨fun _ => RStatus.idle, []⟩

/-- Observable labels of the transition system.  `dispatch i s` is the
invocation of `STAGE_FUNCTIONS[s](config_i, s, logger)` in `run_stage`
that returns successfully (immediately followed, atomically, by
`stage_events[i][s].set()`); `dispatchFail i s` is the same invocation
raising; the other labels dispatch no stage operation. -/
inductive SLabel where
  | start (i : Nat)
  | dispatch (i s : Nat)
  | dispatchFail (i s : Nat)
  | finish (i : Nat)
  | waitError (i : Nat)
  | cancel (i : Nat)
  deriving DecidableEq, Repr

/-- Small-step semantics of the scheduler (`run_pipeline` / `run_stage` /
`main`, lines 471-523).  One runner exists per index of `cfg`; `fails i s`
is the oracle saying whether the external stage operation of config `i` at
stage `s` raises (the scheduler treats stage operations as black boxes).

Rules, in correspondence with the code:
* `start`: the gathered task for config `i` begins; its loop counter is
  `config.start_stage`.
* `finish`: the stage counter has passed `end_stage`, the `for` loop ends
  and the task completes.
* `dispatchOk` and `dispatchFail`: the loop body for stage `s` runs.  When
  `s = 3` and the config has dependencies, the body first awaits
  `stage_events[j][3]` for every provider `j` (so every such signal must
  exist and be set); the stage function then either returns, after which
  `run_stage` sets `stage_events[i][s]` and the loop advances, or raises,
  which leaves the signal unset and ends the task with the exception.
* `waitError`: when `s = 3`, the config has a provider `j` whose event
  dict has no key `3`, evaluating `stage_events[j][3]` raises `KeyError`
  before any waiting happens, ending the task with that exception.
* `cancel`: after some task has ended with an exception,
  `asyncio.gather` propagates it out of `main` and `asyncio.run` cancels
  the tasks that are still pending; a task can only be hit while it is
  suspended, i.e. parked at the stage-3 dependency wait. -/
inductive SchedStep (cfg : List Config) (fails : Nat → Nat → Bool) :
    SchedState → SLabel → SchedState → Prop where
  | start {σ : SchedState} {i : Nat} {c : Config} :
      cfg[i]? = some c →
      σ.rs i = RStatus.idle →
      SchedStep cfg fails σ (SLabel.start i)
        ⟨Function.update σ.rs i (RStatus.atStage c.start_stage), σ.events⟩
  | finish {σ : SchedState} {i : Nat} {c : Config} {s : Nat} :
      cfg[i]? = some c →
      σ.rs i = RStatus.atStage s →
      c.end_stage < s →
      SchedStep cfg fails σ (SLabel.finish i)
        ⟨Function.update σ.rs i RStatus.completed, σ.events⟩
  | dispatchOk {σ : SchedState} {i : Nat} {c : Config} {s : Nat} :
      cfg[i]? = some c →
      σ.rs i = RStatus.atStage s →
      s ≤ c.end_stage →
      (s = 3 → ∀ j ∈ deps cfg i, 3 ∈ eventKeys cfg j ∧ (j, 3) ∈ σ.events) →
      fails i s = false →
      SchedStep cfg fails σ (SLabel.dispatch i s)
        ⟨Function.update σ.rs i (RStatus.atStage (s + 1)), (i, s) :: σ.events⟩
  | dispatchFail {σ : SchedState} {i : Nat} {c : Config} {s : Nat} :
      cfg[i]? = some c →
      σ.rs i = RStatus.atStage s →
      s ≤ c.end_stage →
      (s = 3 → ∀ j ∈ deps cfg i, 3 ∈ eventKeys cfg j ∧ (j, 3) ∈ σ.events) →
      fails i s = true →
      SchedStep cfg fails σ (SLabel.dispatchFail i s)
        ⟨Function.update σ.rs i (RStatus.failed s), σ.events⟩
  | waitError {σ : SchedState} {i : Nat} {c : Config} {j : Nat} :
      cfg[i]? = some c →
      σ.rs i = RStatus.atStage 3 →
      3 ≤ c.end_stage →
      j ∈ deps cfg i →
      3 ∉ eventKeys cfg j →
      SchedStep cfg fails σ (SLabel.waitError i)
        ⟨Function.update σ.rs i (RStatus.failed 3), σ.events⟩
  | cancel {σ : SchedState} {i : Nat} {c : Config} {k sk : Nat} :
      cfg[i]? = some c →
      σ.rs k = RStatus.failed sk →
      σ.rs i = RStatus.atStage 3 →
      3 ≤ c.end_stage →
      deps cfg i ≠ [] →
      (∀ j ∈ deps cfg i, 3 ∈ eventKeys cfg j) →
      SchedStep cfg fails σ (SLabel.cancel i)
        ⟨Function.update σ.rs i RStatus.cancelled, σ.events⟩

/-- Finite executions of the scheduler, recording the trace of labels. -/
inductive Exec (cfg : List Config) (fails : Nat → Nat → Bool) :
    SchedState → List SLabel → SchedState → Prop where
  | refl (σ : SchedState) : Exec cfg fails σ [] σ
  | snoc {σ₀ : SchedState} {tr : List SLabel} {σ₁ : SchedState} {l : SLabel}
      {σ₂ : SchedState} :
      Exec cfg fails σ₀ tr σ₁ →
      SchedStep cfg fails σ₁ l σ₂ →
      Exec cfg fails σ₀ (tr ++ [l]) σ₂

/-- Stages dispatched for runner `i` along a trace, in order; both
successful and failing invocations of the stage operation count as a
dispatch. -/
def dispatches (tr : List SLabel) (i : Nat) : List Nat :=
  tr.filterMap fun l =>
    match l with
    | SLabel.dispatch j s => if j = i then some s else none
    | SLabel.dispatchFail j s => if j = i then some s else none
    | _ => none

/-- Contiguous stage interval `[a, b)`, the shape every dispatch history
takes. -/
def rng (a b : Nat) : List Nat := List.range' a (b - a)

theorem mem_rng {a b m : Nat} : m ∈ rng a b ↔ a ≤ m ∧ m < b := by
  unfold rng
  rw [List.mem_range'_1]
  omega

theorem rng_self (a : Nat) : rng a a = [] := by
  unfold rng
  simp

theorem rng_snoc {a s : Nat} (h : a ≤ s) : rng a (s + 1) = rng a s ++ [s] := by
  unfold rng
  have h1 : s + 1 - a = (s - a) + 1 := by omega
  rw [h1, List.range'_1_concat]
  have h2 : a + (s - a) = s := by omega
  rw [h2]

theorem dispatches_append (tr₁ tr₂ : List SLabel) (i : Nat) :
    dispatches (tr₁ ++ tr₂) i = dispatches tr₁ i ++ dispatches tr₂ i :=
  List.filterMap_append ..

theorem dispatches_single_start (k i : Nat) :
    dispatches [SLabel.start k] i = [] := rfl

theorem dispatches_single_finish (k i : Nat) :
    dispatches [SLabel.finish k] i = [] := rfl

theorem dispatches_single_waitError (k i : Nat) :
    dispatches [SLabel.waitError k] i = [] := rfl

theorem dispatches_single_cancel (k i : Nat) :
    dispatches [SLabel.cancel k] i = [] := rfl

theorem dispatches_single_dispatch (k s i : Nat) :
    dispatches [SLabel.dispatch k s] i = if k = i then [s] else [] := by
  by_cases h : k = i <;> simp [dispatches, List.filterMap_cons, h]

theorem dispatches_single_dispatchFail (k s i : Nat) :
    dispatches [SLabel.dispatchFail k s] i = if k = i then [s] else [] := by
  by_cases h : k = i <;> simp [dispatches, List.filterMap_cons, h]

theorem events_mem_cons_ne {ev : List (Nat × Nat)} {m s i s' : Nat}
    (h : i ≠ m) : ((i, s') ∈ ((m, s) :: ev)) ↔ (i, s') ∈ ev := by
  constructor
  · intro hx
    rcases List.mem_cons.mp hx with hx | hx
    · exact absurd (congrArg Prod.fst hx) h
    · exact hx
  · exact fun hx => List.mem_cons_of_mem _ hx

/-- Signals of runner `i` that are set are exactly the stages in `[a, b)`. -/
def evOk (σ : SchedState) (i a b : Nat) : Prop :=
  ∀ s, (i, s) ∈ σ.events ↔ (a ≤ s ∧ s < b)

theorem evOk_congr {σ σ' : SchedState} {i a b : Nat}
    (hev : ∀ s, (i, s) ∈ σ'.events ↔ (i, s) ∈ σ.events)
    (h : evOk σ i a b) : evOk σ' i a b :=
  fun s => (hev s).trans (h s)

/-- Per-runner invariant tying the runner status to its dispatch history
and its set signals.  `atStage s` may exceed `end_stage + 1` only in the
degenerate start position (empty stage range); a `failed` status records
either a failing stage operation or a missing provider signal at the
stage-3 wait. -/
def StatusInv (cfg : List Config) (fails : Nat → Nat → Bool)
    (tr : List SLabel) (σ : SchedState) (i : Nat) (c : Config) :
    RStatus → Prop
  | RStatus.idle => dispatches tr i = [] ∧ ∀ s, (i, s) ∉ σ.events
  | RStatus.atStage s =>
      c.start_stage ≤ s ∧ (c.start_stage < s → s ≤ c.end_stage + 1) ∧
      dispatches tr i = rng c.start_stage s ∧ evOk σ i c.start_stage s
  | RStatus.completed =>
      dispatches tr i = rng c.start_stage (c.end_stage + 1) ∧
      evOk σ i c.start_stage (c.end_stage + 1)
  | RStatus.failed s =>
      c.start_stage ≤ s ∧ s ≤ c.end_stage ∧ evOk σ i c.start_stage s ∧
      ((fails i s = true ∧ dispatches tr i = rng c.start_stage (s + 1)) ∨
        (s = 3 ∧ (∃ j ∈ deps cfg i, 3 ∉ eventKeys cfg j) ∧
          dispatches tr i = rng c.start_stage 3))
  | RStatus.cancelled =>
      deps cfg i ≠ [] ∧ c.start_stage ≤ 3 ∧ 3 ≤ c.end_stage ∧
      dispatches tr i = rng c.start_stage 3 ∧ evOk σ i c.start_stage 3

/-- Global invariant of the scheduler transition system. -/
def SchedInv (cfg : List Config) (fails : Nat → Nat → Bool)
    (tr : List SLabel) (σ : SchedState) : Prop :=
  (∀ i, cfg[i]? = none →
    σ.rs i = RStatus.idle ∧ dispatches tr i = [] ∧ ∀ s, (i, s) ∉ σ.events) ∧
  (∀ i s, (i, s) ∈ σ.events → SLabel.dispatch i s ∈ tr) ∧
  (∀ i c, cfg[i]? = some c → StatusInv cfg fails tr σ i c (σ.rs i))

theorem statusInv_congr {cfg : List Config} {fails : Nat → Nat → Bool}
    {tr tr' : List SLabel} {σ σ' : SchedState} {i : Nat} {c : Config}
    {st : RStatus}
    (hd : dispatches tr' i = dispatches tr i)
    (hev : ∀ s, (i, s) ∈ σ'.events ↔ (i, s) ∈ σ.events)
    (h : StatusInv cfg fails tr σ i c st) :
    StatusInv cfg fails tr' σ' i c st := by
  cases st with
  | idle => exact ⟨hd.trans h.1, fun s hs => h.2 s ((hev s).mp hs)⟩
  | atStage s =>
      exact ⟨h.1, h.2.1, hd.trans h.2.2.1, evOk_congr hev h.2.2.2⟩
  | completed => exact ⟨hd.trans h.1, evOk_congr hev h.2⟩
  | failed s =>
      refine ⟨h.1, h.2.1, evOk_congr hev h.2.2.1, ?_⟩
      exact h.2.2.2.imp (fun hx => ⟨hx.1, hd.trans hx.2⟩)
        (fun hx => ⟨hx.1, hx.2.1, hd.trans hx.2.2⟩)
  | cancelled =>
      exact ⟨h.1, h.2.1, h.2.2.1, hd.trans h.2.2.2.1,
        evOk_congr hev h.2.2.2.2⟩

theorem schedInv_init (cfg : List Config) (fails : Nat → Nat → Bool) :
    SchedInv cfg fails [] initState := by
  refine ⟨fun i _ => ⟨rfl, rfl, fun s h => absurd h (List.not_mem_nil _)⟩,
    fun i s h => absurd h (List.not_mem_nil _), fun i c _ => ?_⟩
  exact ⟨rfl, fun s h => absurd h (List.not_mem_nil _)⟩

theorem schedInv_step {cfg : List Config} {fails : Nat → Nat → Bool}
    {tr : List SLabel} {σ : SchedState} {l : SLabel} {σ' : SchedState}
    (hinv : SchedInv cfg fails tr σ)
    (hstep : SchedStep cfg fails σ l σ') :
    SchedInv cfg fails (tr ++ [l]) σ' := by
  obtain ⟨hout, hlab, hst⟩ := hinv
  have hne_of_none : ∀ i, cfg[i]? = none →
      ∀ (m : Nat) (c : Config), cfg[m]? = some c → i ≠ m :=
    fun i hi m c hm h => by rw [h, hm] at hi; cases hi
  cases hstep with
  | @start m c hc hm =>
      refine ⟨?_, ?_, ?_⟩
      · intro i hi
        have hne : i ≠ m := hne_of_none i hi m c hc
        obtain ⟨h1, h2, h3⟩ := hout i hi
        refine ⟨?_, ?_, h3⟩
        · dsimp only
          rw [Function.update_noteq hne]
          exact h1
        · rw [dispatches_append, h2, dispatches_single_start]
          rfl
      · intro i s hsev
        exact List.mem_append_left _ (hlab i s hsev)
      · intro i c' hci
        dsimp only
        by_cases hne : i = m
        · subst hne
          rw [hci] at hc
          have hcc : c' = c := Option.some.inj hc
          subst hcc
          rw [Function.update_same]
          have hold := hst i c' hci
          rw [hm] at hold
          refine ⟨le_refl _, fun h => absurd h (lt_irrefl _), ?_, ?_⟩
          · rw [dispatches_append, hold.1, dispatches_single_start, rng_self]
            rfl
          · exact fun s => ⟨fun h => absurd h (hold.2 s),
              fun h => absurd h (by omega)⟩
        · rw [Function.update_noteq hne]
          refine statusInv_congr ?_ (fun s => Iff.rfl) (hst i c' hci)
          rw [dispatches_append, dispatches_single_start, List.append_nil]
  | @finish m c s hc hm hlt =>
      refine ⟨?_, ?_, ?_⟩
      · intro i hi
        have hne : i ≠ m := hne_of_none i hi m c hc
        obtain ⟨h1, h2, h3⟩ := hout i hi
        refine ⟨?_, ?_, h3⟩
        · dsimp only
          rw [Function.update_noteq hne]
          exact h1
        · rw [dispatches_append, h2, dispatches_single_finish]
          rfl
      · intro i s' hsev
        exact List.mem_append_left _ (hlab i s' hsev)
      · intro i c' hci
        dsimp only
        by_cases hne : i = m
        · subst hne
          rw [hci] at hc
          have hcc : c' = c := Option.some.inj hc
          subst hcc
          rw [Function.update_same]
          have hold := hst i c' hci
          rw [hm] at hold
          obtain ⟨hA, hB, hD, hE⟩ := hold
          have hss : s - c'.start_stage = c'.end_stage + 1 - c'.start_stage := by
            rcases eq_or_lt_of_le hA with heq | hlt2
            · omega
            · have := hB hlt2; omega
          refine ⟨?_, ?_⟩
          · rw [dispatches_append, hD, dispatches_single_finish,
              List.append_nil]
            unfold rng
            rw [hss]
          · intro s'
            refine (hE s').trans ?_
            rcases eq_or_lt_of_le hA with heq | hlt2
            · omega
            · have := hB hlt2; omega
        · rw [Function.update_noteq hne]
          refine statusInv_congr ?_ (fun s' => Iff.rfl) (hst i c' hci)
          rw [dispatches_append, dispatches_single_finish, List.append_nil]
  | @dispatchOk m c s hc hm hle hw hff =>
      refine ⟨?_, ?_, ?_⟩
      · intro i hi
        have hne : i ≠ m := hne_of_none i hi m c hc
        obtain ⟨h1, h2, h3⟩ := hout i hi
        refine ⟨?_, ?_, ?_⟩
        · dsimp only
          rw [Function.update_noteq hne]
          exact h1
        · rw [dispatches_append, h2, dispatches_single_dispatch,
            if_neg (fun h => hne h.symm)]
          rfl
        · intro s'
          intro hx
          rcases List.mem_cons.mp hx with hx | hx
          · exact hne (congrArg Prod.fst hx)
          · exact h3 s' hx
      · intro i s' hsev
        rcases List.mem_cons.mp hsev with hx | hx
        · have hi : i = m := congrArg Prod.fst hx
          have hs : s' = s := congrArg Prod.snd hx
          subst hi; subst hs
          exact List.mem_append_right _ (List.mem_cons_self _ _)
        · exact List.mem_append_left _ (hlab i s' hx)
      · intro i c' hci
        dsimp only
        by_cases hne : i = m
        · subst hne
          rw [hci] at hc
          have hcc : c' = c := Option.some.inj hc
          subst hcc
          rw [Function.update_same]
          have hold := hst i c' hci
          rw [hm] at hold
          obtain ⟨hA, hB, hD, hE⟩ := hold
          refine ⟨Nat.le_succ_of_le hA, fun _ => by omega, ?_, ?_⟩
          · rw [dispatches_append, hD, dispatches_single_dispatch,
              if_pos rfl, rng_snoc hA]
          · intro s'
            constructor
            · intro hx
              rcases List.mem_cons.mp hx with hx | hx
              · have hs : s' = s := congrArg Prod.snd hx
                omega
              · have := (hE s').mp hx
                omega
            · intro hx
              by_cases hs' : s' = s
              · subst hs'
                exact List.mem_cons_self _ _
              · have hmem : c'.start_stage ≤ s' ∧ s' < s := by omega
                exact List.mem_cons_of_mem _ ((hE s').mpr hmem)
        · rw [Function.update_noteq hne]
          refine statusInv_congr ?_ (fun s' => events_mem_cons_ne hne)
            (hst i c' hci)
          rw [dispatches_append, dispatches_single_dispatch,
            if_neg (fun h => hne h.symm), List.append_nil]
  | @dispatchFail m c s hc hm hle hw hff =>
      refine ⟨?_, ?_, ?_⟩
      · intro i hi
        have hne : i ≠ m := hne_of_none i hi m c hc
        obtain ⟨h1, h2, h3⟩ := hout i hi
        refine ⟨?_, ?_, h3⟩
        · dsimp only
          rw [Function.update_noteq hne]
          exact h1
        · rw [dispatches_append, h2, dispatches_single_dispatchFail,
            if_neg (fun h => hne h.symm)]
          rfl
      · intro i s' hsev
        exact List.mem_append_left _ (hlab i s' hsev)
      · intro i c' hci
        dsimp only
        by_cases hne : i = m
        · subst hne
          rw [hci] at hc
          have hcc : c' = c := Option.some.inj hc
          subst hcc
          rw [Function.update_same]
          have hold := hst i c' hci
          rw [hm] at hold
          obtain ⟨hA, hB, hD, hE⟩ := hold
          refine ⟨hA, hle, hE, Or.inl ⟨hff, ?_⟩⟩
          rw [dispatches_append, hD, dispatches_single_dispatchFail,
            if_pos rfl, rng_snoc hA]
        · rw [Function.update_noteq hne]
          refine statusInv_congr ?_ (fun s' => Iff.rfl) (hst i c' hci)
          rw [dispatches_append, dispatches_single_dispatchFail,
            if_neg (fun h => hne h.symm), List.append_nil]
  | @waitError m c j hc hm h3 hj hk =>
      refine ⟨?_, ?_, ?_⟩
      · intro i hi
        have hne : i ≠ m := hne_of_none i hi m c hc
        obtain ⟨h1, h2, h3x⟩ := hout i hi
        refine ⟨?_, ?_, h3x⟩
        · dsimp only
          rw [Function.update_noteq hne]
          exact h1
        · rw [dispatches_append, h2, dispatches_single_waitError]
          rfl
      · intro i s' hsev
        exact List.mem_append_left _ (hlab i s' hsev)
      · intro i c' hci
        dsimp only
        by_cases hne : i = m
        · subst hne
          rw [hci] at hc
          have hcc : c' = c := Option.some.inj hc
          subst hcc
          rw [Function.update_same]
          have hold := hst i c' hci
          rw [hm] at hold
          obtain ⟨hA, hB, hD, hE⟩ := hold
          refine ⟨hA, h3, hE, Or.inr ⟨rfl, ⟨j, hj, hk⟩, ?_⟩⟩
          rw [dispatches_append, hD, dispatches_single_waitError,
            List.append_nil]
        · rw [Function.update_noteq hne]
          refine statusInv_congr ?_ (fun s' => Iff.rfl) (hst i c' hci)
          rw [dispatches_append, dispatches_single_waitError,
            List.append_nil]
  | @cancel m c k sk hc hkf hm h3 hdep hkeys =>
      refine ⟨?_, ?_, ?_⟩
      · intro i hi
        have hne : i ≠ m := hne_of_none i hi m c hc
        obtain ⟨h1, h2, h3x⟩ := hout i hi
        refine ⟨?_, ?_, h3x⟩
        · dsimp only
          rw [Function.update_noteq hne]
          exact h1
        · rw [dispatches_append, h2, dispatches_single_cancel]
          rfl
      · intro i s' hsev
        exact List.mem_append_left _ (hlab i s' hsev)
      · intro i c' hci
        dsimp only
        by_cases hne : i = m
        · subst hne
          rw [hci] at hc
          have hcc : c' = c := Option.some.inj hc
          subst hcc
          rw [Function.update_same]
          have hold := hst i c' hci
          rw [hm] at hold
          obtain ⟨hA, hB, hD, hE⟩ := hold
          refine ⟨hdep, hA, h3, ?_, hE⟩
          rw [dispatches_append, hD, dispatches_single_cancel,
            List.append_nil]
        · rw [Function.update_noteq hne]
          refine statusInv_congr ?_ (fun s' => Iff.rfl) (hst i c' hci)
          rw [dispatches_append, dispatches_single_cancel, List.append_nil]

/-- Every execution from the initial state satisfies the invariant. -/
theorem schedInv_of_exec {cfg : List Config} {fails : Nat → Nat → Bool}
    {tr : List SLabel} {σ : SchedState}
    (h : Exec cfg fails initState tr σ) : SchedInv cfg fails tr σ := by
  induction h with
  | refl => exact schedInv_init cfg fails
  | snoc hexec hstep ih => exact schedInv_step ih hstep

theorem update_rs_ne_of_status {σ : SchedState} {m : Nat} {st₀ st' : RStatus}
    {i : Nat} {st : RStatus} (hm : σ.rs m = st₀) (h : σ.rs i = st)
    (hdiff : st ≠ st₀) : Function.update σ.rs m st' i = st := by
  by_cases hne : i = m
  · subst hne
    rw [h] at hm
    exact absurd hm hdiff
  · rw [Function.update_noteq hne]
    exact h

/-- Terminal statuses (anything that is neither `idle` nor `atStage`) are
preserved by every step: no rule restarts a completed, failed or cancelled
runner. -/
theorem step_preserves_terminal {cfg : List Config}
    {fails : Nat → Nat → Bool} {σ : SchedState} {l : SLabel}
    {σ' : SchedState} {i : Nat} {st : RStatus}
    (hstep : SchedStep cfg fails σ l σ') (h : σ.rs i = st)
    (hterm : ∀ s, st ≠ RStatus.idle ∧ st ≠ RStatus.atStage s) :
    σ'.rs i = st := by
  cases hstep with
  | @start m c hc hm => exact update_rs_ne_of_status hm h (hterm 0).1
  | @finish m c s hc hm hlt => exact update_rs_ne_of_status hm h (hterm s).2
  | @dispatchOk m c s hc hm hle hw hff =>
      exact update_rs_ne_of_status hm h (hterm s).2
  | @dispatchFail m c s hc hm hle hw hff =>
      exact update_rs_ne_of_status hm h (hterm s).2
  | @waitError m c j hc hm h3 hj hk =>
      exact update_rs_ne_of_status hm h (hterm 3).2
  | @cancel m c k sk hc hkf hm h3 hdep hkeys =>
      exact update_rs_ne_of_status hm h (hterm 3).2

theorem exec_preserves_terminal {cfg : List Config}
    {fails : Nat → Nat → Bool} {σ : SchedState} {tr : List SLabel}
    {σ' : SchedState} {i : Nat} {st : RStatus}
    (hexec : Exec cfg fails σ tr σ') (h : σ.rs i = st)
    (hterm : ∀ s, st ≠ RStatus.idle ∧ st ≠ RStatus.atStage s) :
    σ'.rs i = st := by
  induction hexec with
  | refl => exact h
  | snoc hexec hstep ih => exact step_preserves_terminal hstep ih hterm

theorem step_frozen_after_failed {cfg : List Config}
    {fails : Nat → Nat → Bool} {σ : SchedState} {l : SLabel}
    {σ' : SchedState} {i s : Nat}
    (hstep : SchedStep cfg fails σ l σ') (h : σ.rs i = RStatus.failed s) :
    (∀ s', (i, s') ∈ σ'.events → (i, s') ∈ σ.events) ∧
    dispatches [l] i = [] := by
  cases hstep with
  | @start m c hc hm => exact ⟨fun s' hx => hx, rfl⟩
  | @finish m c s0 hc hm hlt => exact ⟨fun s' hx => hx, rfl⟩
  | @dispatchOk m c s0 hc hm hle hw hff =>
      have hne : i ≠ m := fun hx => by
        subst hx
        rw [h] at hm
        cases hm
      refine ⟨fun s' hx => (events_mem_cons_ne hne).mp hx, ?_⟩
      rw [dispatches_single_dispatch, if_neg (fun hx => hne hx.symm)]
  | @dispatchFail m c s0 hc hm hle hw hff =>
      have hne : i ≠ m := fun hx => by
        subst hx
        rw [h] at hm
        cases hm
      refine ⟨fun s' hx => hx, ?_⟩
      rw [dispatches_single_dispatchFail, if_neg (fun hx => hne hx.symm)]
  | @waitError m c j hc hm h3 hj hk => exact ⟨fun s' hx => hx, rfl⟩
  | @cancel m c k sk hc hkf hm h3 hdep hkeys => exact ⟨fun s' hx => hx, rfl⟩

/-- Once a runner has failed it stays failed, sets no signal of its own
and dispatches nothing further. -/
theorem exec_frozen_after_failed {cfg : List Config}
    {fails : Nat → Nat → Bool} {σ : SchedState} {tr : List SLabel}
    {σ' : SchedState} {i s : Nat}
    (hexec : Exec cfg fails σ tr σ') (h : σ.rs i = RStatus.failed s) :
    σ'.rs i = RStatus.failed s ∧
    (∀ s', (i, s') ∈ σ'.events → (i, s') ∈ σ.events) ∧
    dispatches tr i = [] := by
  induction hexec with
  | refl => exact ⟨h, fun s' hx => hx, rfl⟩
  | snoc hexec hstep ih =>
      obtain ⟨h1, h2, h3⟩ := ih
      obtain ⟨h4, h5⟩ := step_frozen_after_failed hstep h1
      refine ⟨step_preserves_terminal hstep h1
        (fun s0 => ⟨fun hx => RStatus.noConfusion hx,
          fun hx => RStatus.noConfusion hx⟩),
        fun s' hx => h2 s' (h4 s' hx), ?_⟩
      rw [dispatches_append, h3, h5]
      rfl

/-- C3: a record with a non-empty dependency set never has its stage-3
operation dispatched before every one of its providers' stage-3 signals is
done: at the moment of the dispatch every provider's `(j, 3)` signal is
already set, and each was set by an earlier successful stage-3 dispatch of
that provider appearing in the trace (`run_pipeline` awaits all of them —
a conjunction — before invoking `run_stage`). -/
theorem stage3_dispatch_requires_provider_signals {cfg : List Config}
    {fails : Nat → Nat → Bool} {tr : List SLabel} {σ σ' : SchedState}
    {i : Nat} (hexec : Exec cfg fails initState tr σ)
    (hstep : SchedStep cfg fails σ (SLabel.dispatch i 3) σ')
    (hdep : deps cfg i ≠ []) :
    ∀ j ∈ deps cfg i, (j, 3) ∈ σ.events ∧ SLabel.dispatch j 3 ∈ tr := by
  cases hstep with
  | @dispatchOk m c s hc hm hle hw hff =>
      intro j hj
      have h1 := (hw rfl) j hj
      exact ⟨h1.2, (schedInv_of_exec hexec).2.1 j 3 h1.2⟩

/-- C7: along any execution the stages dispatched for one runner form an
initial segment of `start_stage, start_stage + 1, ..., end_stage` in that
order — never skipped, reordered, or outside the range; a completed
runner has dispatched exactly that full range; and a runner whose range
starts above 3 is never at the synchronization stage, hence never reaches
the dependency wait. -/
theorem runner_dispatch_order {cfg : List Config}
    {fails : Nat → Nat → Bool} {tr : List SLabel} {σ : SchedState}
    {i : Nat} {c : Config}
    (hexec : Exec cfg fails initState tr σ) (hc : cfg[i]? = some c) :
    (∃ k, k ≤ c.end_stage + 1 - c.start_stage ∧
      dispatches tr i = List.range' c.start_stage k) ∧
    (σ.rs i = RStatus.completed →
      dispatches tr i =
        List.range' c.start_stage (c.end_stage + 1 - c.start_stage)) ∧
    (3 < c.start_stage → σ.rs i ≠ RStatus.atStage 3) := by
  have hinv := (schedInv_of_exec hexec).2.2 i c hc
  cases hst : σ.rs i with
  | idle =>
      rw [hst] at hinv
      refine ⟨⟨0, by omega, by rw [hinv.1]; rfl⟩, ?_, ?_⟩
      · intro h
        cases h
      · intro _ h
        cases h
  | atStage s =>
      rw [hst] at hinv
      obtain ⟨hA, hB, hD, hE⟩ := hinv
      have hk : s - c.start_stage ≤ c.end_stage + 1 - c.start_stage := by
        rcases eq_or_lt_of_le hA with heq | hlt
        · omega
        · have := hB hlt
          omega
      refine ⟨⟨s - c.start_stage, hk, hD⟩, ?_, ?_⟩
      · intro h
        cases h
      · intro h3 heq
        injection heq with hs
        omega
  | completed =>
      rw [hst] at hinv
      refine ⟨⟨c.end_stage + 1 - c.start_stage, le_refl _, hinv.1⟩,
        fun _ => hinv.1, ?_⟩
      intro _ h
      cases h
  | failed s =>
      rw [hst] at hinv
      obtain ⟨hA, hle, hE, hor⟩ := hinv
      refine ⟨?_, ?_, ?_⟩
      · rcases hor with ⟨hf, hD⟩ | ⟨h3, hj, hD⟩
        · exact ⟨s + 1 - c.start_stage, by omega, hD⟩
        · exact ⟨3 - c.start_stage, by omega, hD⟩
      · intro h
        cases h
      · intro _ h
        cases h
  | cancelled =>
      rw [hst] at hinv
      obtain ⟨hdeps, hA3, h3e, hD, hE⟩ := hinv
      refine ⟨⟨3 - c.start_stage, by omega, hD⟩, ?_, ?_⟩
      · intro h
        cases h
      · intro _ h
        cases h

/-- C5: when a dispatched stage operation fails, the runner never marks
the `(configIndex, stageNumber)` signal done (`run_stage` only calls
`set()` after the stage function returns), dispatches no further stage,
and the `failed` outcome persists for the rest of the run, where
`asyncio.gather` surfaces the exception to the scheduler. -/
theorem failed_stage_freezes_runner {cfg : List Config}
    {fails : Nat → Nat → Bool} {tr : List SLabel} {σ : SchedState}
    {i s : Nat} {c : Config} (hexec : Exec cfg fails initState tr σ)
    (hc : cfg[i]? = some c) (hf : σ.rs i = RStatus.failed s) :
    (i, s) ∉ σ.events ∧
    ∀ tr' σ', Exec cfg fails σ tr' σ' →
      σ'.rs i = RStatus.failed s ∧ (i, s) ∉ σ'.events ∧
      dispatches tr' i = [] := by
  have hinv := (schedInv_of_exec hexec).2.2 i c hc
  rw [hf] at hinv
  obtain ⟨hA, hle, hE, hor⟩ := hinv
  have hnotin : (i, s) ∉ σ.events := fun hx => by
    have := (hE s).mp hx
    omega
  refine ⟨hnotin, fun tr' σ' hexec' => ?_⟩
  obtain ⟨h1, h2, h3⟩ := exec_frozen_after_failed hexec' hf
  exact ⟨h1, fun hx => hnotin (h2 s hx), h3⟩

/-- C4 (amended): a record's failure never marks a sibling `Failed` — a
runner is `failed` only because its own dispatched stage operation raised,
or its own stage-3 wait referenced a missing provider signal — and a
runner that has completed stays completed.  A sibling that is still
pending when the scheduler tears down after a failure may however be
cancelled instead of reaching `Completed`; see the counterexample to the
original claim. -/
theorem failure_is_local {cfg : List Config} {fails : Nat → Nat → Bool}
    {tr : List SLabel} {σ : SchedState} {i : Nat} {c : Config}
    (hexec : Exec cfg fails initState tr σ) (hc : cfg[i]? = some c) :
    (∀ s, σ.rs i = RStatus.failed s →
      (c.start_stage ≤ s ∧ s ≤ c.end_stage) ∧
      (fails i s = true ∨
        (s = 3 ∧ ∃ j ∈ deps cfg i, 3 ∉ eventKeys cfg j))) ∧
    (σ.rs i = RStatus.completed →
      ∀ tr' σ', Exec cfg fails σ tr' σ' →
        σ'.rs i = RStatus.completed) := by
  constructor
  · intro s hfs
    have hinv := (schedInv_of_exec hexec).2.2 i c hc
    rw [hfs] at hinv
    obtain ⟨hA, hle, hE, hor⟩ := hinv
    refine ⟨⟨hA, hle⟩, ?_⟩
    rcases hor with ⟨hf, _⟩ | ⟨h3, hj, _⟩
    · exact Or.inl hf
    · exact Or.inr ⟨h3, hj⟩
  · intro hcomp tr' σ' hexec'
    exact exec_preserves_terminal hexec' hcomp
      (fun s0 => ⟨fun hx => RStatus.noConfusion hx,
        fun hx => RStatus.noConfusion hx⟩)

/-- C10: for a record whose `start_stage` exceeds its `end_stage` the
scheduler performs no validation: `range(start_stage, end_stage + 1)` is
empty, so the registry creates no completion signal for the record, and
its runner dispatches no stage operation, can neither fail nor be
cancelled, and whenever it has started, finishing as `Completed` is
immediately enabled (the `for` loop of `run_pipeline` ends at once). -/
theorem empty_range_runner {cfg : List Config} {i : Nat} {c : Config}
    (hc : cfg[i]? = some c) (hrange : c.end_stage < c.start_stage) :
    eventKeys cfg i = [] ∧
    ∀ (fails : Nat → Nat → Bool) (tr : List SLabel) (σ : SchedState),
      Exec cfg fails initState tr σ →
      dispatches tr i = [] ∧
      (∀ s, σ.rs i ≠ RStatus.failed s) ∧
      σ.rs i ≠ RStatus.cancelled ∧
      (∀ s, σ.rs i = RStatus.atStage s →
        SchedStep cfg fails σ (SLabel.finish i)
          ⟨Function.update σ.rs i RStatus.completed, σ.events⟩) := by
  constructor
  · unfold eventKeys
    rw [hc]
    show List.range' c.start_stage (c.end_stage + 1 - c.start_stage) = []
    have h0 : c.end_stage + 1 - c.start_stage = 0 := by omega
    rw [h0]
    rfl
  · intro fails tr σ hexec
    have hinv := (schedInv_of_exec hexec).2.2 i c hc
    refine ⟨?_, ?_, ?_, ?_⟩
    · cases hst : σ.rs i with
      | idle =>
          rw [hst] at hinv
          exact hinv.1
      | atStage s =>
          rw [hst] at hinv
          obtain ⟨hA, hB, hD, hE⟩ := hinv
          have hs : s = c.start_stage := by
            rcases eq_or_lt_of_le hA with heq | hlt
            · omega
            · have := hB hlt
              omega
          rw [hD, hs, rng_self]
      | completed =>
          rw [hst] at hinv
          rw [hinv.1]
          unfold rng
          have h0 : c.end_stage + 1 - c.start_stage = 0 := by omega
          rw [h0]
          rfl
      | failed s =>
          rw [hst] at hinv
          obtain ⟨hA, hle, _, _⟩ := hinv
          exact absurd hA (by omega)
      | cancelled =>
          rw [hst] at hinv
          obtain ⟨_, hA3, h3e, _, _⟩ := hinv
          exact absurd hA3 (by omega)
    · intro s h
      rw [h] at hinv
      obtain ⟨hA, hle, _, _⟩ := hinv
      omega
    · intro h
      rw [h] at hinv
      obtain ⟨_, hA3, h3e, _, _⟩ := hinv
      omega
    · intro s hs
      rw [hs] at hinv
      have hA := hinv.1
      exact SchedStep.finish hc hs (by omega)

/-- C2 (amended): completion signals are created at setup exactly for the
stages in each record's own `[start_stage, end_stage]` range, before any
runner starts.  Hence a provider's stage-3 signal exists iff 3 lies in
the provider's own range, and a dependent's stage-3 wait references only
existing signals provided every one of its providers' ranges contains
stage 3.  (The original claim — that every referenced provider signal
always exists — fails for a provider whose range excludes stage 3, whose
dependents then hit a missing signal, a `KeyError`; see the
counterexample.) -/
theorem provider_signal_created_of_stage3_in_range {configs : List Config}
    {i j : Nat} {js : List Nat} {cj : Config}
    (hmem : (i, js) ∈ identify_dependencies configs) (hj : j ∈ js)
    (hcj : configs[j]? = some cj)
    (h1 : cj.start_stage ≤ 3) (h2 : 3 ≤ cj.end_stage) :
    (∀ s, s ∈ eventKeys configs j ↔
      (cj.start_stage ≤ s ∧ s ≤ cj.end_stage)) ∧
    3 ∈ eventKeys configs j := by
  have hkeys : ∀ s, s ∈ eventKeys configs j ↔
      (cj.start_stage ≤ s ∧ s ≤ cj.end_stage) := by
    intro s
    unfold eventKeys
    rw [hcj, List.mem_range'_1]
    omega
  exact ⟨hkeys, (hkeys 3).mpr ⟨h1, h2⟩⟩

/-- Output-identity triple `(dst_dir, extra_path_component, image_type)`
recorded in `dst_folder_set` by the `__main__` block (line 552). -/
def dst_folder (c : Config) : String × String × String :=
  (c.dst_dir, c.extra_path_component, c.image_type)

/-- Duplicate check of the `__main__` block (lines 547-559): walk the
configs in order keeping the set of triples seen so far and raise
`ValueError` on the first duplicate.  Modelled with `Except`; membership
in a list stands for membership in the Python set. -/
def check_dst_folders : List Config → List (String × String × String) →
    Except String Unit
  | [], _ => Except.ok ()
  | c :: rest, seen =>
    if dst_folder c ∈ seen then
      Except.error
        "Duplicate (dst_dir, extra_path_component, image_type) is not supported"
    else check_dst_folders rest (dst_folder c :: seen)

/-- Scheduler executions exist only behind the duplicate check:
`ValueError` is raised before `asyncio.run(main(configs))` on line 562, so
for a rejected batch no runner starts and no stage is ever dispatched. -/
def ProgramReach (cfg : List Config) (fails : Nat → Nat → Bool)
    (tr : List SLabel) (σ : SchedState) : Prop :=
  check_dst_folders cfg [] = Except.ok () ∧ Exec cfg fails initState tr σ

theorem check_error_of_seen :
    ∀ (l : List Config) (seen : List (String × String × String))
      (c : Config), c ∈ l → dst_folder c ∈ seen →
      ∃ msg, check_dst_folders l seen = Except.error msg := by
  intro l
  induction l with
  | nil =>
      intro seen c hc hseen
      exact absurd hc (List.not_mem_nil c)
  | cons a rest ih =>
      intro seen c hc hseen
      by_cases ha : dst_folder a ∈ seen
      · refine ⟨"Duplicate (dst_dir, extra_path_component, image_type) is not supported", ?_⟩
        unfold check_dst_folders
        rw [if_pos ha]
      · rcases List.mem_cons.mp hc with rfl | hc'
        · exact absurd hseen ha
        · obtain ⟨msg, hmsg⟩ := ih (dst_folder a :: seen) c hc'
            (List.mem_cons_of_mem _ hseen)
          refine ⟨msg, ?_⟩
          unfold check_dst_folders
          rw [if_neg ha]
          exact hmsg

theorem check_error_of_dup :
    ∀ (l : List Config) (seen : List (String × String × String)),
      (∃ (i j : Nat) (ci cj : Config), i < j ∧ l[i]? = some ci ∧
        l[j]? = some cj ∧ dst_folder ci = dst_folder cj) →
      ∃ msg, check_dst_folders l seen = Except.error msg := by
  intro l
  induction l with
  | nil =>
      rintro seen ⟨i, j, ci, cj, hij, hi, hj, heq⟩
      simp at hi
  | cons a rest ih =>
      rintro seen ⟨i, j, ci, cj, hij, hi, hj, heq⟩
      by_cases ha : dst_folder a ∈ seen
      · refine ⟨"Duplicate (dst_dir, extra_path_component, image_type) is not supported", ?_⟩
        unfold check_dst_folders
        rw [if_pos ha]
      · have hstep : check_dst_folders (a :: rest) seen =
            check_dst_folders rest (dst_folder a :: seen) := by
          simp only [check_dst_folders]
          rw [if_neg ha]
        rw [hstep]
        obtain ⟨j', rfl⟩ : ∃ j', j = j' + 1 := ⟨j - 1, by omega⟩
        have hj' : rest[j']? = some cj := by simpa using hj
        cases i with
        | zero =>
            have hca : a = ci := by simpa using hi
            have hcj_mem : cj ∈ rest := List.getElem?_mem hj'
            refine check_error_of_seen rest _ cj hcj_mem ?_
            have hdd : dst_folder cj = dst_folder a :=
              (heq.symm.trans (congrArg dst_folder hca.symm))
            rw [hdd]
            exact List.mem_cons_self _ _
        | succ i' =>
            exact ih _ ⟨i', j', ci, cj, by omega, by simpa using hi, hj', heq⟩

/-- C6: two distinct records sharing the same `(dst_dir,
extra_path_component, image_type)` triple make the `__main__` duplicate
check raise `ValueError` before `asyncio.run` is reached: the whole batch
is rejected up front, no scheduler execution exists, and hence no stage
operation of any record is ever dispatched. -/
theorem duplicate_triple_rejected {cfg : List Config} {i j : Nat}
    {ci cj : Config} (hij : i < j) (hi : cfg[i]? = some ci)
    (hj : cfg[j]? = some cj) (heq : dst_folder ci = dst_folder cj) :
    (∃ msg, check_dst_folders cfg [] = Except.error msg) ∧
    ∀ fails tr σ, ¬ ProgramReach cfg fails tr σ := by
  have herr := check_error_of_dup cfg [] ⟨i, j, ci, cj, hij, hi, hj, heq⟩
  refine ⟨herr, fun fails tr σ hreach => ?_⟩
  obtain ⟨msg, hmsg⟩ := herr
  rw [hreach.1] at hmsg
  exact Except.noConfusion hmsg

/-- Stage-failure oracle of the all-success scenarios: no stage operation
ever raises. -/
def noFail : Nat → Nat → Bool := fun _ _ => false

/-- State after the provider of Scenario A (index 0) has started. -/
def σA1 : SchedState :=
  ⟨Function.update initState.rs 0 (RStatus.atStage 3), []⟩

/-- State after the provider has run its stage 3 and set its signal. -/
def σA2 : SchedState :=
  ⟨Function.update σA1.rs 0 (RStatus.atStage 4), [(0, 3)]⟩

/-- State after the dependent (index 1) has started and sits at its
stage-3 dependency wait. -/
def σA3 : SchedState :=
  ⟨Function.update σA2.rs 1 (RStatus.atStage 3), [(0, 3)]⟩

/-- State after the dependent has run its stage 3. -/
def σA4 : SchedState :=
  ⟨Function.update σA3.rs 1 (RStatus.atStage 4), [(1, 3), (0, 3)]⟩

theorem execA3 : Exec cfgsA noFail initState
    [SLabel.start 0, SLabel.dispatch 0 3, SLabel.start 1] σA3 :=
  Exec.snoc
    (Exec.snoc
      (Exec.snoc (Exec.refl initState)
        (@SchedStep.start cfgsA noFail initState 0 cfgX rfl rfl))
      (@SchedStep.dispatchOk cfgsA noFail σA1 0 cfgX 3 rfl rfl (by decide)
        (by decide) rfl))
    (@SchedStep.start cfgsA noFail σA2 1 cfgY rfl rfl)

theorem stepA4 : SchedStep cfgsA noFail σA3 (SLabel.dispatch 1 3) σA4 :=
  @SchedStep.dispatchOk cfgsA noFail σA3 1 cfgY 3 rfl rfl (by decide)
    (by decide) rfl

theorem stage3_dispatch_requires_provider_signals_witness :
    deps cfgsA 1 ≠ [] ∧ (0, 3) ∈ σA3.events ∧
    SLabel.dispatch 0 3 ∈
      [SLabel.start 0, SLabel.dispatch 0 3, SLabel.start 1] := by
  have h := stage3_dispatch_requires_provider_signals execA3 stepA4
    (by decide)
  have h0 := h 0 (by decide)
  exact ⟨by decide, h0.1, h0.2⟩

theorem provider_signal_created_of_stage3_in_range_witness :
    3 ∈ eventKeys cfgsA 0 :=
  (@provider_signal_created_of_stage3_in_range cfgsA 1 0 [0] cfgX
    (by decide) (by decide) rfl (by decide) (by decide)).2

/-- Booru contributor whose stage range `[4, 4]` excludes the
synchronization stage. -/
def cfgP : Config := ⟨"booru", 1, "r2", 4, 4, "dp", "pp", "booru"⟩

/-- Dependent record sharing the reference directory of `cfgP`, with the
synchronization stage inside its range `[3, 3]`. -/
def cfgQ : Config := ⟨"screenshots", 0, "r2", 3, 3, "dq", "pq", "screenshots"⟩

/-- Record list refuting C2. -/
def cfgsB : List Config := [cfgP, cfgQ]

/-- State after the dependent of `cfgsB` has started. -/
def σB1 : SchedState :=
  ⟨Function.update initState.rs 1 (RStatus.atStage 3), []⟩

/-- State after the dependent's wait hit the missing provider signal. -/
def σB2 : SchedState :=
  ⟨Function.update σB1.rs 1 (RStatus.failed 3), []⟩

/-- C2 is refuted: in `cfgsB` the dependent record 1 depends on provider
record 0, a booru contributor whose stage range `[4, 4]` excludes stage
3; the registry creates only the key set `{4}` for record 0, so the
stage-3 signal the dependent's wait references is never created, and the
dependent's runner ends with the missing-signal error
(`KeyError: stage_events[0][3]`) instead of waiting — the claimed "signal
always exists before any runner starts" fails on this input. -/
theorem provider_signal_missing_counterexample :
    (1, [0]) ∈ identify_dependencies cfgsB ∧
    0 ∈ deps cfgsB 1 ∧
    3 ∉ eventKeys cfgsB 0 ∧
    cfgsB[1]? = some cfgQ ∧ cfgQ.start_stage ≤ 3 ∧ 3 ≤ cfgQ.end_stage ∧
    Exec cfgsB noFail initState [SLabel.start 1, SLabel.waitError 1] σB2 ∧
    σB2.rs 1 = RStatus.failed 3 :=
  ⟨by decide, by decide, by decide, rfl, by decide, by decide,
    Exec.snoc
      (Exec.snoc (Exec.refl initState)
        (@SchedStep.start cfgsB noFail initState 1 cfgQ rfl rfl))
      (@SchedStep.waitError cfgsB noFail σB1 1 cfgQ 0 rfl rfl (by decide)
        (by decide) (by decide)),
    rfl⟩

/-- Record failing at its own stage 1, unrelated to the others. -/
def cfgA0 : Config := ⟨"screenshots", 0, "rA", 1, 1, "da", "pa", "sa"⟩

/-- Record depending (only) on `cfgC2` via reference directory `r1`. -/
def cfgB1 : Config := ⟨"screenshots", 0, "r1", 3, 3, "db", "pb", "sb"⟩

/-- Booru contributor providing for `cfgB1`. -/
def cfgC2 : Config := ⟨"booru", 1, "r1", 3, 3, "dc", "pc", "sc"⟩

/-- Record list refuting C4. -/
def cfgsF : List Config := [cfgA0, cfgB1, cfgC2]

/-- Stage-failure oracle for `cfgsF`: exactly record 0's stage operations
raise. -/
def failsF : Nat → Nat → Bool := fun i _ => i == 0

def σF1 : SchedState :=
  ⟨Function.update initState.rs 0 (RStatus.atStage 1), []⟩

def σF2 : SchedState :=
  ⟨Function.update σF1.rs 0 (RStatus.failed 1), []⟩

def σF3 : SchedState :=
  ⟨Function.update σF2.rs 1 (RStatus.atStage 3), []⟩

def σF4 : SchedState :=
  ⟨Function.update σF3.rs 1 RStatus.cancelled, []⟩

def σF5 : SchedState :=
  ⟨Function.update σF4.rs 2 (RStatus.atStage 3), []⟩

def σF6 : SchedState :=
  ⟨Function.update σF5.rs 2 (RStatus.atStage 4), [(2, 3)]⟩

def σF7 : SchedState :=
  ⟨Function.update σF6.rs 2 RStatus.completed, [(2, 3)]⟩

theorem execF2 : Exec cfgsF failsF initState
    [SLabel.start 0, SLabel.dispatchFail 0 1] σF2 :=
  Exec.snoc
    (Exec.snoc (Exec.refl initState)
      (@SchedStep.start cfgsF failsF initState 0 cfgA0 rfl rfl))
    (@SchedStep.dispatchFail cfgsF failsF σF1 0 cfgA0 1 rfl rfl (by decide)
      (fun h => absurd h (by decide)) rfl)

theorem execF7 : Exec cfgsF failsF initState
    [SLabel.start 0, SLabel.dispatchFail 0 1, SLabel.start 1,
      SLabel.cancel 1, SLabel.start 2, SLabel.dispatch 2 3,
      SLabel.finish 2] σF7 :=
  Exec.snoc (Exec.snoc (Exec.snoc (Exec.snoc (Exec.snoc execF2
    (@SchedStep.start cfgsF failsF σF2 1 cfgB1 rfl rfl))
    (@SchedStep.cancel cfgsF failsF σF3 1 cfgB1 0 1 rfl rfl rfl (by decide)
      (by decide) (by decide)))
    (@SchedStep.start cfgsF failsF σF4 2 cfgC2 rfl rfl))
    (@SchedStep.dispatchOk cfgsF failsF σF5 2 cfgC2 3 rfl rfl (by decide)
      (by decide) rfl))
    (@SchedStep.finish cfgsF failsF σF6 2 cfgC2 4 rfl rfl (by decide))

/-- Dependency edge of the spec: record `i` waits on provider `j`. -/
def depEdge (cfg : List Config) (i j : Nat) : Prop := j ∈ deps cfg i

/-- Direct-or-transitive dependency relation between records. -/
def depRel (cfg : List Config) : Nat → Nat → Prop :=
  Relation.TransGen (depEdge cfg)

theorem depEdge_cfgsF {a b : Nat} (h : depEdge cfgsF a b) :
    a = 1 ∧ b = 2 := by
  unfold depEdge deps at h
  have hid : identify_dependencies cfgsF = [(1, [2])] := by decide
  rw [hid] at h
  rcases eq_or_ne a 1 with rfl | ha
  · have hl : List.lookup 1 [(1, [2])] = some [2] := rfl
    rw [hl] at h
    have hb : b ∈ [2] := h
    simp at hb
    exact ⟨rfl, hb⟩
  · have hbeq : (a == 1) = false := beq_eq_false_iff_ne.mpr ha
    simp [List.lookup, hbeq] at h

theorem depRel_cfgsF {a b : Nat} (h : depRel cfgsF a b) : a = 1 ∧ b = 2 := by
  induction h with
  | single hx => exact depEdge_cfgsF hx
  | tail hr hx ih =>
      obtain ⟨h1, h2⟩ := ih
      obtain ⟨h3, h4⟩ := depEdge_cfgsF hx
      omega

/-- C4 is refuted: in `cfgsF` record 0 fails at its own stage 1; record 1
has no dependency relation with record 0 in either direction (its only
edge goes to record 2), yet the teardown after the failure cancels record
1 while it is parked at its stage-3 dependency wait, so record 1 never
reaches `Completed` — it stays cancelled in every continuation — even
though record 2 runs to completion.  This mirrors the Python behaviour:
`asyncio.gather` propagates record 0's exception out of `main` and
`asyncio.run` then cancels the still-pending task of record 1. -/
theorem independent_sibling_aborted_counterexample :
    Exec cfgsF failsF initState
      [SLabel.start 0, SLabel.dispatchFail 0 1, SLabel.start 1,
        SLabel.cancel 1, SLabel.start 2, SLabel.dispatch 2 3,
        SLabel.finish 2] σF7 ∧
    σF7.rs 0 = RStatus.failed 1 ∧
    ¬ depRel cfgsF 1 0 ∧ ¬ depRel cfgsF 0 1 ∧
    σF7.rs 1 = RStatus.cancelled ∧
    σF7.rs 2 = RStatus.completed ∧
    (∀ tr' σ', Exec cfgsF failsF σF7 tr' σ' →
      σ'.rs 1 = RStatus.cancelled) := by
  refine ⟨execF7, rfl, ?_, ?_, rfl, rfl, ?_⟩
  · intro h
    have := depRel_cfgsF h
    omega
  · intro h
    have := depRel_cfgsF h
    omega
  · intro tr' σ' hexec'
    exact exec_preserves_terminal hexec' rfl
      (fun s0 => ⟨fun hx => RStatus.noConfusion hx,
        fun hx => RStatus.noConfusion hx⟩)

theorem failure_is_local_witness :
    (cfgA0.start_stage ≤ 1 ∧ 1 ≤ cfgA0.end_stage) ∧
    (failsF 0 1 = true ∨
      (1 = 3 ∧ ∃ j ∈ deps cfgsF 0, 3 ∉ eventKeys cfgsF j)) :=
  (@failure_is_local cfgsF failsF _ σF2 0 cfgA0 execF2 rfl).1 1 rfl

theorem failed_stage_freezes_runner_witness :
    (0, 1) ∉ σF2.events ∧
    (∀ tr' σ', Exec cfgsF failsF σF2 tr' σ' →
      σ'.rs 0 = RStatus.failed 1 ∧ (0, 1) ∉ σ'.events ∧
      dispatches tr' 0 = []) := by
  have h := @failed_stage_freezes_runner cfgsF failsF _ σF2 0 1 cfgA0
    execF2 rfl rfl
  exact ⟨h.1, h.2⟩

/-- First record of the duplicate-triple batch. -/
def cfgD1 : Config := ⟨"screenshots", 0, "rd", 1, 2, "dd", "pd", "sd"⟩

/-- Second record of the duplicate-triple batch: same `(dst_dir,
extra_path_component, image_type)` triple as `cfgD1`. -/
def cfgD2 : Config := ⟨"booru", 2, "re", 3, 7, "dd", "pd", "sd"⟩

/-- Batch with a duplicate output-identity triple. -/
def cfgsD : List Config := [cfgD1, cfgD2]

theorem duplicate_triple_rejected_witness :
    (∃ msg, check_dst_folders cfgsD [] = Except.error msg) ∧
    ∀ fails tr σ, ¬ ProgramReach cfgsD fails tr σ :=
  @duplicate_triple_rejected cfgsD 0 1 cfgD1 cfgD2 (by decide) rfl rfl rfl

/-- Record of spec Scenario D: stage range `[5, 7]`, no dependencies. -/
def cfgG : Config := ⟨"screenshots", 0, "rg", 5, 7, "dg", "pg", "sg"⟩

/-- Record list of spec Scenario D. -/
def cfgsG : List Config := [cfgG]

def σG1 : SchedState :=
  ⟨Function.update initState.rs 0 (RStatus.atStage 5), []⟩

def σG2 : SchedState :=
  ⟨Function.update σG1.rs 0 (RStatus.atStage 6), [(0, 5)]⟩

def σG3 : SchedState :=
  ⟨Function.update σG2.rs 0 (RStatus.atStage 7), [(0, 6), (0, 5)]⟩

def σG4 : SchedState :=
  ⟨Function.update σG3.rs 0 (RStatus.atStage 8), [(0, 7), (0, 6), (0, 5)]⟩

def σG5 : SchedState :=
  ⟨Function.update σG4.rs 0 RStatus.completed, [(0, 7), (0, 6), (0, 5)]⟩

theorem execG : Exec cfgsG noFail initState
    [SLabel.start 0, SLabel.dispatch 0 5, SLabel.dispatch 0 6,
      SLabel.dispatch 0 7, SLabel.finish 0] σG5 :=
  Exec.snoc (Exec.snoc (Exec.snoc (Exec.snoc (Exec.snoc (Exec.refl initState)
    (@SchedStep.start cfgsG noFail initState 0 cfgG rfl rfl))
    (@SchedStep.dispatchOk cfgsG noFail σG1 0 cfgG 5 rfl rfl (by decide)
      (fun h => absurd h (by decide)) rfl))
    (@SchedStep.dispatchOk cfgsG noFail σG2 0 cfgG 6 rfl rfl (by decide)
      (fun h => absurd h (by decide)) rfl))
    (@SchedStep.dispatchOk cfgsG noFail σG3 0 cfgG 7 rfl rfl (by decide)
      (fun h => absurd h (by decide)) rfl))
    (@SchedStep.finish cfgsG noFail σG4 0 cfgG 8 rfl rfl (by decide))

theorem runner_dispatch_order_witness :
    dispatches [SLabel.start 0, SLabel.dispatch 0 5, SLabel.dispatch 0 6,
      SLabel.dispatch 0 7, SLabel.finish 0] 0 = [5, 6, 7] ∧
    (3 < cfgG.start_stage → σG5.rs 0 ≠ RStatus.atStage 3) := by
  have h := @runner_dispatch_order cfgsG noFail _ σG5 0 cfgG execG rfl
  refine ⟨?_, h.2.2⟩
  have h2 := h.2.1 rfl
  exact h2.trans (by decide)

/-- Record with an inverted stage range: `start_stage = 5 > 3 = end_stage`. -/
def cfgE : Config := ⟨"screenshots", 0, "rE", 5, 3, "de", "pe", "se"⟩

/-- Record list with a single inverted-range record. -/
def cfgsE : List Config := [cfgE]

def σE1 : SchedState :=
  ⟨Function.update initState.rs 0 (RStatus.atStage 5), []⟩

theorem execE : Exec cfgsE noFail initState [SLabel.start 0] σE1 :=
  Exec.snoc (Exec.refl initState)
    (@SchedStep.start cfgsE noFail initState 0 cfgE rfl rfl)

theorem empty_range_runner_witness :
    eventKeys cfgsE 0 = [] ∧
    dispatches [SLabel.start 0] 0 = [] ∧
    (∀ s, σE1.rs 0 ≠ RStatus.failed s) ∧
    SchedStep cfgsE noFail σE1 (SLabel.finish 0)
      ⟨Function.update σE1.rs 0 RStatus.completed, σE1.events⟩ := by
  have h := @empty_range_runner cfgsE 0 cfgE rfl (by decide)
  have h2 := h.2 noFail [SLabel.start 0] σE1 execE
  exact ⟨h.1, h2.1, h2.2.1, h2.2.2.2 5 rfl⟩

end AutoPipeline
